import Mathlib

/-!
Verification of the directed weighted graph with all-pairs Dijkstra from
Graph.cpp / Graph.h (adjacency-list graph over a bounded, 1-based vertex set).

The C++ state is embedded value-wise: each vertex's linked list of EdgeNode
records becomes a Lean `List EdgeNode` (list position plays the role of the
nextEdge pointer), the table `T` becomes a function, and `int` becomes `Int`
with the `INT_MAX` sentinel written out.  A separate heap-based model of the
edge lists is introduced further below for the deep-copy claim, where pointer
identity itself is the subject.
-/

/-- Graph.h: `static const int MAX_VERTICES = 101`. -/
def MAX_VERTICES : Nat := 101

/-- C `INT_MAX`, used by Graph.cpp as the infinite-distance sentinel. -/
def INT_MAX : Int := 2147483647

/-- Graph.h `struct EdgeNode`: destination subscript and weight of one directed
edge.  The `nextEdge` pointer is represented by list position. -/
structure EdgeNode where
  adjVertex : Nat
  weight : Int
deriving DecidableEq

/-- Graph.h `struct Table`: one cell of the table `T`. -/
structure Entry where
  visited : Bool
  dist : Int
  path : Nat
deriving DecidableEq

/-- The sentinel state every cell of `T` is reset to by findShortestPath
(Graph.cpp 276-282). -/
def initEntry : Entry := { visited := false, dist := INT_MAX, path := 0 }

/-- One row `T[source]` of the table, indexed by destination vertex. -/
abbrev Row := Nat → Entry

/-- The Graph object (Graph.h 151-178): vertex count `size`, per-vertex
adjacency list (`vertices[i].edgeHead`), per-vertex label
(`vertices[i].data`, `none` = nullptr) and the table `T`. -/
structure Graph where
  size : Nat
  edges : Nat → List EdgeNode
  labels : Nat → Option String
  T : Nat → Nat → Entry

/-- Graph::Graph() (Graph.cpp 78-84): empty store.  `T` is uninitialised
memory in C++; it is given the sentinel state here. -/
def defaultGraph : Graph :=
  { size := 0, edges := fun _ => [], labels := fun _ => none, T := fun _ _ => initEntry }

/-- The walk of Graph::insertEdge over an adjacency list (Graph.cpp 199-217).
The `[]` case is the empty-list branch at line 199.  The loop at 207-215 only
examines nodes that have a successor (`while (current->nextEdge != nullptr)`),
updating a matching edge in place; on reaching the last node it appends the
new edge after it without checking the last node itself. -/
def insertWalk (destinationVertex : Nat) (weight : Int) : List EdgeNode → List EdgeNode
  | [] => [{ adjVertex := destinationVertex, weight := weight }]
  | [e] => [e, { adjVertex := destinationVertex, weight := weight }]
  | e :: e2 :: rest =>
    if e.adjVertex = destinationVertex then { e with weight := weight } :: e2 :: rest
    else e :: insertWalk destinationVertex weight (e2 :: rest)

/-- Graph::insertEdge (Graph.cpp 185-219): rejects a negative weight with no
mutation, otherwise rewrites sourceVertex's adjacency list by `insertWalk`
and reports success. -/
def insertEdge (g : Graph) (sourceVertex destinationVertex : Nat) (weight : Int) :
    Graph × Bool :=
  if weight < 0 then (g, false)
  else
    ({ g with
        edges := fun i =>
          if i = sourceVertex then insertWalk destinationVertex weight (g.edges sourceVertex)
          else g.edges i },
      true)

/-- Graph::removeEdge's effect on one adjacency list (Graph.cpp 231-261):
`none` when the list is empty or holds no edge to the destination (lines
233-235 and 253-255), otherwise the list with the first matching edge
unlinked (head case at 241-246, interior case at 249-258). -/
def removeEdgeList (destinationVertex : Nat) : List EdgeNode → Option (List EdgeNode)
  | [] => none
  | e :: rest =>
    if e.adjVertex = destinationVertex then some rest
    else Option.map (fun l => e :: l) (removeEdgeList destinationVertex rest)

/-- Graph::removeEdge (Graph.cpp 231-261). -/
def removeEdge (g : Graph) (sourceVertex destinationVertex : Nat) : Graph × Bool :=
  match removeEdgeList destinationVertex (g.edges sourceVertex) with
  | none => (g, false)
  | some l =>
    ({ g with edges := fun i => if i = sourceVertex then l else g.edges i }, true)

/-- Graph::clearGraph (Graph.cpp 126-145): when `size > 0`, for each vertex
slot `1..size` the adjacency list is deleted and the label freed; `size`
itself is never written. -/
def clearGraph (g : Graph) : Graph :=
  if 0 < g.size then
    { g with
      edges := fun i => if 1 ≤ i ∧ i ≤ g.size then [] else g.edges i,
      labels := fun i => if 1 ≤ i ∧ i ≤ g.size then none else g.labels i }
  else g

/-- The scan loop of Graph::lowestWeightVertex (Graph.cpp 353-358), folded
over the remaining indices with the running lowestWeight / returnVertex
accumulators. -/
def lwvAux (row : Row) : List Nat → Int → Nat → Nat
  | [], _, returnVertex => returnVertex
  | i :: rest, lowestWeight, returnVertex =>
    if (row i).visited = false ∧ (row i).dist < lowestWeight
    then lwvAux row rest (row i).dist i
    else lwvAux row rest lowestWeight returnVertex

/-- Graph::lowestWeightVertex (Graph.cpp 350-360): scans `i = 1..size` with
`lowestWeight = INT_MAX`, `returnVertex = 0` initially. -/
def lowestWeightVertex (size : Nat) (row : Row) : Nat :=
  lwvAux row (List.range' 1 size) INT_MAX 0

/-- Relaxation of one edge out of the just-visited vertex
(Graph.cpp 320-329): an unvisited endpoint whose distance improves gets the
new distance and predecessor. -/
def relaxEdge (vertex : Nat) (e : EdgeNode) (row : Row) : Row :=
  if (row e.adjVertex).visited = false ∧
      (row vertex).dist + e.weight < (row e.adjVertex).dist then
    fun w =>
      if w = e.adjVertex then
        { row e.adjVertex with dist := (row vertex).dist + e.weight, path := vertex }
      else row w
  else row

/-- The `while (current != nullptr)` edge loop (Graph.cpp 318-332). -/
def relaxList (vertex : Nat) : List EdgeNode → Row → Row
  | [], row => row
  | e :: rest, row => relaxList vertex rest (relaxEdge vertex e row)

/-- Graph.cpp 312: `T[source][vertex].visited = true`. -/
def markVisited (vertex : Nat) (row : Row) : Row :=
  fun w => if w = vertex then { row vertex with visited := true } else row w

/-- One iteration of the relax loop body (Graph.cpp 307-336); `none` signals
the early `return` taken when lowestWeightVertex yields 0. -/
def helperStep (g : Graph) (row : Row) : Option Row :=
  let vertex := lowestWeightVertex g.size row
  if 0 < vertex then some (relaxList vertex (g.edges vertex) (markVisited vertex row))
  else none

/-- The `for (int i = 1; i < size; i++)` loop of findShortestPathHelper. -/
def helperLoop (g : Graph) : Nat → Row → Row
  | 0, row => row
  | n + 1, row =>
    match helperStep g row with
    | some row2 => helperLoop g n row2
    | none => row

/-- The source row right after the global reset (Graph.cpp 276-282) and the
two assignments at the head of findShortestPathHelper (Graph.cpp 302-303):
`T[source][source].dist = 0; T[source][source].path = source`. -/
def initRow (source : Nat) : Row :=
  fun w => if w = source then { initEntry with dist := 0, path := source } else initEntry

/-- Graph::findShortestPathHelper (Graph.cpp 300-338) as the final state of
one source row: the source cell starts at distance 0 with itself as
predecessor, every other cell at the sentinel, then the loop body runs
`size - 1` times (with early exit). -/
def findShortestPathHelper (g : Graph) (source : Nat) : Row :=
  helperLoop g (g.size - 1) (initRow source)

/-- Graph::findShortestPath (Graph.cpp 274-287): the whole table is reset to
the sentinel, then the helper runs once per source `1..size`; each helper
run reads and writes only its own row, so rows are independent. -/
def findShortestPath (g : Graph) : Nat → Nat → Entry :=
  fun s => if 1 ≤ s ∧ s ≤ g.size then findShortestPathHelper g s else fun _ => initEntry

/-- The all-pairs computation as a Graph transformer (the spec's
`computeAllPairs`): stores the recomputed table, touching nothing else. -/
def computeAllPairs (g : Graph) : Graph :=
  { g with T := findShortestPath g }

/-- Graph::printPath (Graph.cpp 413-421) as the list of vertices it prints.
The C++ recursion is unbounded, so it is modelled with explicit fuel; the
theorems below show that fuel `g.size` is never exhausted on a computed
table. -/
def printPathFuel (row : Row) (source : Nat) : Nat → Nat → List Nat
  | 0, _ => []
  | fuel + 1, destination =>
    if 0 < (row destination).path then
      (if source ≠ destination then printPathFuel row source fuel (row destination).path
       else []) ++ [destination]
    else []

/-- The sequence Graph::printPath walks for a pair, read from the graph's
current table. -/
def printPathSeq (g : Graph) (source destination : Nat) : List Nat :=
  printPathFuel (g.T source) source g.size destination

/-- Caller discipline assumed throughout the spec: the vertex count fits the
table and every stored edge points into `1..size` and carries a non-negative
weight (insertEdge guarantees the weight part; the vertex range is the
caller's responsibility per the spec). -/
def WFGraph (g : Graph) : Prop :=
  g.size < MAX_VERTICES ∧
    ∀ v < MAX_VERTICES, ∀ e ∈ g.edges v,
      1 ≤ e.adjVertex ∧ e.adjVertex ≤ g.size ∧ 0 ≤ e.weight

instance : DecidablePred WFGraph := fun g => by
  unfold WFGraph; infer_instance

/-- `chainSum g u l total`: starting at `u`, the vertices of `l` can be
reached one after another along edges present in `g`, and the traversed edge
weights sum to `total`. -/
def chainSum (g : Graph) : Nat → List Nat → Int → Prop
  | _, [], total => total = 0
  | u, v :: rest, total =>
    ∃ e ∈ g.edges u, e.adjVertex = v ∧ ∃ t, chainSum g v rest t ∧ total = e.weight + t

/-- The three-vertex scenario from the spec: edges (1,2,5), (2,3,2), (1,3,10). -/
def exampleGraph : Graph :=
  { size := 3
    edges := fun i =>
      if i = 1 then [{ adjVertex := 2, weight := 5 }, { adjVertex := 3, weight := 10 }]
      else if i = 2 then [{ adjVertex := 3, weight := 2 }]
      else []
    labels := fun _ => none
    T := fun _ _ => initEntry }

/-- A one-vertex graph with a single self-loop free vertex. -/
def oneVertexGraph : Graph :=
  { size := 1, edges := fun _ => [], labels := fun _ => none, T := fun _ _ => initEntry }

/-- Two Graph values with equal fields are equal. -/
theorem Graph.eq_of_fields {g1 g2 : Graph} (h1 : g1.size = g2.size)
    (h2 : g1.edges = g2.edges) (h3 : g1.labels = g2.labels) (h4 : g1.T = g2.T) :
    g1 = g2 := by
  cases g1; cases g2; simp_all

/-- removeEdgeList fails exactly when no edge of the list points to the
destination. -/
theorem removeEdgeList_eq_none_iff (d : Nat) (l : List EdgeNode) :
    removeEdgeList d l = none ↔ ∀ e ∈ l, e.adjVertex ≠ d := by
  induction l with
  | nil => simp [removeEdgeList]
  | cons e rest ih =>
    by_cases h : e.adjVertex = d
    · simp [removeEdgeList, h]
    · simp only [removeEdgeList, if_neg h, Option.map_eq_none', ih, List.mem_cons]
      constructor
      · intro hall x hx
        rcases hx with hx | hx
        · subst hx; exact h
        · exact hall x hx
      · intro hall x hx
        exact hall x (Or.inr hx)

/-- removeEdgeList unlinks exactly the first matching edge. -/
theorem removeEdgeList_first_match (d : Nat) (w : Int) (pre post : List EdgeNode)
    (hpre : ∀ e ∈ pre, e.adjVertex ≠ d) :
    removeEdgeList d (pre ++ { adjVertex := d, weight := w } :: post) =
      some (pre ++ post) := by
  induction pre with
  | nil => simp [removeEdgeList]
  | cons e rest ih =>
    have he : e.adjVertex ≠ d := hpre e (by simp)
    have ih2 := ih (fun x hx => hpre x (by simp [hx]))
    simp [removeEdgeList, he, ih2]

/-- A list containing a match decomposes at its first match. -/
theorem exists_first_match (d : Nat) (l : List EdgeNode)
    (h : ∃ e ∈ l, e.adjVertex = d) :
    ∃ pre w post, l = pre ++ { adjVertex := d, weight := w } :: post ∧
      ∀ e ∈ pre, e.adjVertex ≠ d := by
  induction l with
  | nil => simp at h
  | cons e rest ih =>
    by_cases he : e.adjVertex = d
    · refine ⟨[], e.weight, rest, ?_, by simp⟩
      cases e
      simp_all
    · obtain ⟨e2, he2, hd⟩ := h
      rcases List.mem_cons.mp he2 with hx | hx
      · subst hx; exact absurd hd he
      · obtain ⟨pre, w, post, hl, hpre⟩ := ih ⟨e2, hx, hd⟩
        refine ⟨e :: pre, w, post, by simp [hl], ?_⟩
        intro x hx2
        rcases List.mem_cons.mp hx2 with hx2 | hx2
        · subst hx2; exact he
        · exact hpre x hx2

/-- A graph whose vertex 1 carries two edges to vertex 2 (the state insertEdge
actually produces after inserting (1,2) twice). -/
def dupEdgeGraph : Graph :=
  { size := 2
    edges := fun i =>
      if i = 1 then [{ adjVertex := 2, weight := 5 }, { adjVertex := 2, weight := 7 }]
      else []
    labels := fun _ => none
    T := fun _ _ => initEntry }

/-- C2: insertEdge's postcondition comment (Graph.cpp 179-182) promises an
in-place weight update when the edge already exists, but the walk loop
(`while (current->nextEdge != nullptr)`, line 207) never examines the last
node of the list.  Inserting (1,2,5) into an empty list and then (1,2,7)
therefore appends a duplicate edge node instead of updating the first:
the adjacency list of vertex 1 ends up holding two edges to vertex 2,
the stale one first, and both calls report success. -/
theorem insertEdge_duplicate_bug :
    (insertEdge (insertEdge defaultGraph 1 2 5).1 1 2 7).1.edges 1 =
        [{ adjVertex := 2, weight := 5 }, { adjVertex := 2, weight := 7 }] ∧
      (insertEdge (insertEdge defaultGraph 1 2 5).1 1 2 7).2 = true ∧
      insertWalk 2 7 [{ adjVertex := 2, weight := 5 }, { adjVertex := 3, weight := 1 }] =
        [{ adjVertex := 2, weight := 7 }, { adjVertex := 3, weight := 1 }] := by
  refine ⟨by decide, by decide, by decide⟩

/-- C7: insertEdge rejects a negative weight with `false` and no state change
at all, and accepts every non-negative weight (weight 0 and self-loops
included) with `true` (Graph.cpp 186-189 and the unconditional `return true`
paths). -/
theorem insertEdge_weight_spec (g : Graph) (src dst : Nat) (w : Int) :
    (w < 0 → insertEdge g src dst w = (g, false)) ∧
      (0 ≤ w → (insertEdge g src dst w).2 = true) := by
  constructor
  · intro hw
    simp [insertEdge, hw]
  · intro hw
    have hw2 : ¬ w < 0 := not_lt.mpr hw
    simp [insertEdge, hw2]

/-- Witness for insertEdge_weight_spec: weight -1 is rejected without any
mutation, and a weight-0 self-loop insertion succeeds. -/
theorem insertEdge_weight_spec_witness :
    insertEdge defaultGraph 1 2 (-1) = (defaultGraph, false) ∧
      (insertEdge defaultGraph 1 1 0).2 = true :=
  ⟨(insertEdge_weight_spec defaultGraph 1 2 (-1)).1 (by decide),
    (insertEdge_weight_spec defaultGraph 1 1 0).2 (by decide)⟩

/-- C8: removeEdge returns `false` leaving the whole object unchanged when the
source has no outgoing edges or no edge to the destination exists; when one
exists it returns `true` and unlinks exactly the first matching edge
(head position included), keeping the remaining edges in order and touching
no other field of the graph. -/
theorem removeEdge_spec (g : Graph) (src dst : Nat) :
    (g.edges src = [] → removeEdge g src dst = (g, false)) ∧
      ((∀ e ∈ g.edges src, e.adjVertex ≠ dst) → removeEdge g src dst = (g, false)) ∧
      ((∃ e ∈ g.edges src, e.adjVertex = dst) →
        (removeEdge g src dst).2 = true ∧
        ∃ pre w post,
          g.edges src = pre ++ { adjVertex := dst, weight := w } :: post ∧
            (∀ e ∈ pre, e.adjVertex ≠ dst) ∧
            (removeEdge g src dst).1.edges src = pre ++ post ∧
            (∀ i, i ≠ src → (removeEdge g src dst).1.edges i = g.edges i) ∧
            (removeEdge g src dst).1.size = g.size ∧
            (removeEdge g src dst).1.labels = g.labels ∧
            (removeEdge g src dst).1.T = g.T) := by
  refine ⟨?_, ?_, ?_⟩
  · intro hempty
    have hnone : removeEdgeList dst (g.edges src) = none := by
      rw [hempty]; rfl
    simp [removeEdge, hnone]
  · intro hno
    have hnone : removeEdgeList dst (g.edges src) = none :=
      (removeEdgeList_eq_none_iff dst (g.edges src)).mpr hno
    simp [removeEdge, hnone]
  · intro hex
    obtain ⟨pre, w, post, hl, hpre⟩ := exists_first_match dst (g.edges src) hex
    have hsome : removeEdgeList dst (g.edges src) = some (pre ++ post) := by
      rw [hl]; exact removeEdgeList_first_match dst w pre post hpre
    refine ⟨by simp [removeEdge, hsome], pre, w, post, hl, hpre, ?_, ?_, ?_, ?_, ?_⟩
    · simp [removeEdge, hsome]
    · intro i hi
      simp [removeEdge, hsome, hi]
    · simp [removeEdge, hsome]
    · simp [removeEdge, hsome]
    · simp [removeEdge, hsome]

/-- Witness for removeEdge_spec: on the three-vertex example graph, removing
the absent edge 2→1 fails without change, removing the present edge 1→2
succeeds. -/
theorem removeEdge_spec_witness :
    removeEdge exampleGraph 2 1 = (exampleGraph, false) ∧
      (removeEdge exampleGraph 1 2).2 = true :=
  ⟨(removeEdge_spec exampleGraph 2 1).2.1 (by decide),
    ((removeEdge_spec exampleGraph 1 2).2.2 (by decide)).1⟩

/-- C10: removeEdge unlinks at most one node per call, namely the first edge
of the source's list aimed at the destination; every edge after the first
match, duplicates to the same destination included, stays in the list. -/
theorem removeEdge_first_match_only (g : Graph) (src dst : Nat) (w : Int)
    (pre post : List EdgeNode)
    (hl : g.edges src = pre ++ { adjVertex := dst, weight := w } :: post)
    (hpre : ∀ e ∈ pre, e.adjVertex ≠ dst) :
    (removeEdge g src dst).1.edges src = pre ++ post ∧
      ∀ e ∈ post, e ∈ (removeEdge g src dst).1.edges src := by
  have hsome : removeEdgeList dst (g.edges src) = some (pre ++ post) := by
    rw [hl]; exact removeEdgeList_first_match dst w pre post hpre
  constructor
  · simp [removeEdge, hsome]
  · intro e he
    simp [removeEdge, hsome, he]

/-- Witness for removeEdge_first_match_only: with two parallel edges 1→2,
removing 1→2 once leaves the second of them in place. -/
theorem removeEdge_first_match_only_witness :
    (removeEdge dupEdgeGraph 1 2).1.edges 1 = [{ adjVertex := 2, weight := 7 }] ∧
      { adjVertex := 2, weight := 7 } ∈ (removeEdge dupEdgeGraph 1 2).1.edges 1 := by
  have h := removeEdge_first_match_only dupEdgeGraph 1 2 5 []
    [{ adjVertex := 2, weight := 7 }] (by decide) (by decide)
  exact ⟨h.1, h.2 { adjVertex := 2, weight := 7 } (by decide)⟩

/-- clearGraph leaves the vertex count untouched. -/
theorem clearGraph_size (g : Graph) : (clearGraph g).size = g.size := by
  by_cases h : 0 < g.size <;> simp [clearGraph, h]

/-- Pointwise description of clearGraph on adjacency lists. -/
theorem clearGraph_edges (g : Graph) (i : Nat) :
    (clearGraph g).edges i = if 1 ≤ i ∧ i ≤ g.size then [] else g.edges i := by
  by_cases h : 0 < g.size
  · simp [clearGraph, h]
  · have hi : ¬ (1 ≤ i ∧ i ≤ g.size) := by omega
    simp [clearGraph, h, hi]

/-- Pointwise description of clearGraph on labels. -/
theorem clearGraph_labels (g : Graph) (i : Nat) :
    (clearGraph g).labels i = if 1 ≤ i ∧ i ≤ g.size then none else g.labels i := by
  by_cases h : 0 < g.size
  · simp [clearGraph, h]
  · have hi : ¬ (1 ≤ i ∧ i ≤ g.size) := by omega
    simp [clearGraph, h, hi]

/-- clearGraph leaves the table untouched. -/
theorem clearGraph_T (g : Graph) : (clearGraph g).T = g.T := by
  by_cases h : 0 < g.size <;> simp [clearGraph, h]

/-- C6 counterexample: clearGraph never writes `size` (Graph.cpp 126-145 has
no assignment to it), so the vertex count of the cleared three-vertex
example graph is still 3, not 0 as the claim states. -/
theorem clearGraph_size_not_reset_cex :
    ¬ ((clearGraph exampleGraph).size = 0) := by decide

/-- C6 amended: clearGraph discards all edges and all vertex labels of every
slot `1..size` and leaves other slots alone, but keeps the vertex count
unchanged instead of resetting it to 0; it is idempotent, and on an
already-empty store (size 0) it changes nothing at all. -/
theorem clearGraph_spec (g : Graph) :
    (clearGraph g).size = g.size ∧
      (∀ i, 1 ≤ i → i ≤ g.size →
        (clearGraph g).edges i = [] ∧ (clearGraph g).labels i = none) ∧
      (∀ i, ¬ (1 ≤ i ∧ i ≤ g.size) →
        (clearGraph g).edges i = g.edges i ∧ (clearGraph g).labels i = g.labels i) ∧
      clearGraph (clearGraph g) = clearGraph g ∧
      (g.size = 0 → clearGraph g = g) := by
  refine ⟨clearGraph_size g, ?_, ?_, ?_, ?_⟩
  · intro i h1 h2
    rw [clearGraph_edges, clearGraph_labels]
    simp [h1, h2]
  · intro i hi
    rw [clearGraph_edges, clearGraph_labels]
    simp [hi]
  · refine Graph.eq_of_fields (clearGraph_size _) ?_ ?_ (clearGraph_T _)
    · funext i
      rw [clearGraph_edges, clearGraph_edges, clearGraph_size]
      by_cases hi : 1 ≤ i ∧ i ≤ g.size <;> simp [hi]
    · funext i
      rw [clearGraph_labels, clearGraph_labels, clearGraph_size]
      by_cases hi : 1 ≤ i ∧ i ≤ g.size <;> simp [hi]
  · intro h0
    simp [clearGraph, h0]

/-- Witness for clearGraph_spec: the cleared example graph keeps size 3,
slot 1 loses its edges and label, and clearing the empty default graph is a
no-op. -/
theorem clearGraph_spec_witness :
    (clearGraph exampleGraph).size = exampleGraph.size ∧
      (clearGraph exampleGraph).edges 1 = [] ∧
      (clearGraph exampleGraph).labels 1 = none ∧
      clearGraph defaultGraph = defaultGraph :=
  ⟨(clearGraph_spec exampleGraph).1,
    ((clearGraph_spec exampleGraph).2.1 1 (by decide) (by decide)).1,
    ((clearGraph_spec exampleGraph).2.1 1 (by decide) (by decide)).2,
    (clearGraph_spec defaultGraph).2.2.2.2 (by decide)⟩

/-- Full functional specification of the lowestWeightVertex scan loop on a
strictly increasing index list: either no unvisited index beats the running
bound and the accumulator is returned, or the result is the first unvisited
index attaining the minimum distance below the bound. -/
theorem lwvAux_spec (row : Row) (L : List Nat) :
    ∀ (lw : Int) (rv : Nat), L.Pairwise (· < ·) →
      (lwvAux row L lw rv = rv ∧
        ∀ i ∈ L, (row i).visited = false → ¬ ((row i).dist < lw)) ∨
      (lwvAux row L lw rv ∈ L ∧
        (row (lwvAux row L lw rv)).visited = false ∧
        (row (lwvAux row L lw rv)).dist < lw ∧
        (∀ i ∈ L, (row i).visited = false →
          (row (lwvAux row L lw rv)).dist ≤ (row i).dist) ∧
        (∀ i ∈ L, (row i).visited = false →
          (row i).dist = (row (lwvAux row L lw rv)).dist →
          lwvAux row L lw rv ≤ i)) := by
  induction L with
  | nil =>
    intro lw rv _
    left
    exact ⟨rfl, by simp⟩
  | cons a rest ih =>
    intro lw rv hpw
    have hpw2 : rest.Pairwise (· < ·) := (List.pairwise_cons.mp hpw).2
    have halt : ∀ i ∈ rest, a < i := (List.pairwise_cons.mp hpw).1
    by_cases hQ : (row a).visited = false ∧ (row a).dist < lw
    · have hstep : lwvAux row (a :: rest) lw rv = lwvAux row rest (row a).dist a := by
        simp [lwvAux, hQ]
      rw [hstep]
      rcases ih (row a).dist a hpw2 with ⟨heq, hnone⟩ | ⟨hmem, hunv, hlt, hmin, htie⟩
      · rw [heq]
        right
        refine ⟨List.mem_cons_self a rest, hQ.1, hQ.2, ?_, ?_⟩
        · intro i hi hunv2
          rcases List.mem_cons.mp hi with h | h
          · subst h; exact le_refl _
          · exact le_of_not_lt (hnone i h hunv2)
        · intro i hi _ _
          rcases List.mem_cons.mp hi with h | h
          · subst h; exact le_refl _
          · exact Nat.le_of_lt (halt i h)
      · right
        refine ⟨List.mem_cons_of_mem a hmem, hunv, lt_trans hlt hQ.2, ?_, ?_⟩
        · intro i hi hunv2
          rcases List.mem_cons.mp hi with h | h
          · subst h; exact le_of_lt hlt
          · exact hmin i h hunv2
        · intro i hi hunv2 hdist
          rcases List.mem_cons.mp hi with h | h
          · subst h; omega
          · exact htie i h hunv2 hdist
    · have hstep : lwvAux row (a :: rest) lw rv = lwvAux row rest lw rv := by
        simp only [lwvAux, if_neg hQ]
      rw [hstep]
      rcases ih lw rv hpw2 with ⟨heq, hnone⟩ | ⟨hmem, hunv, hlt, hmin, htie⟩
      · left
        refine ⟨heq, ?_⟩
        intro i hi hunv2
        rcases List.mem_cons.mp hi with h | h
        · subst h; exact fun hd => hQ ⟨hunv2, hd⟩
        · exact hnone i h hunv2
      · right
        refine ⟨List.mem_cons_of_mem a hmem, hunv, hlt, ?_, ?_⟩
        · intro i hi hunv2
          rcases List.mem_cons.mp hi with h | h
          · subst h
            exact le_of_lt (lt_of_lt_of_le hlt (le_of_not_lt fun hd => hQ ⟨hunv2, hd⟩))
          · exact hmin i h hunv2
        · intro i hi hunv2 hdist
          rcases List.mem_cons.mp hi with h | h
          · subst h
            have : lw ≤ (row i).dist := le_of_not_lt fun hd => hQ ⟨hunv2, hd⟩
            rw [hdist] at this
            exact absurd hlt (not_lt.mpr this)
          · exact htie i h hunv2 hdist

/-- Specification of Graph::lowestWeightVertex: it returns 0 exactly when no
unvisited vertex in `1..size` has a finite distance; otherwise it returns the
unvisited vertex of minimum finite distance, the lowest-numbered one in case
of ties. -/
theorem lowestWeightVertex_spec (size : Nat) (row : Row) :
    (lowestWeightVertex size row = 0 ∧
      ∀ i, 1 ≤ i → i ≤ size → (row i).visited = false → ¬ ((row i).dist < INT_MAX)) ∨
    (1 ≤ lowestWeightVertex size row ∧ lowestWeightVertex size row ≤ size ∧
      (row (lowestWeightVertex size row)).visited = false ∧
      (row (lowestWeightVertex size row)).dist < INT_MAX ∧
      (∀ i, 1 ≤ i → i ≤ size → (row i).visited = false →
        (row (lowestWeightVertex size row)).dist ≤ (row i).dist) ∧
      (∀ i, 1 ≤ i → i ≤ size → (row i).visited = false →
        (row i).dist = (row (lowestWeightVertex size row)).dist →
        lowestWeightVertex size row ≤ i)) := by
  have hpw : (List.range' 1 size).Pairwise (· < ·) := List.pairwise_lt_range' 1 size
  have hmem : ∀ i, i ∈ List.range' 1 size ↔ 1 ≤ i ∧ i < 1 + size := by
    intro i; exact List.mem_range'_1
  rw [show lowestWeightVertex size row = lwvAux row (List.range' 1 size) INT_MAX 0 from rfl]
  rcases lwvAux_spec row (List.range' 1 size) INT_MAX 0 hpw with
    ⟨heq, hnone⟩ | ⟨hm, hunv, hlt, hmin, htie⟩
  · left
    refine ⟨heq, ?_⟩
    intro i h1 h2 hunv2
    exact hnone i ((hmem i).mpr ⟨h1, by omega⟩) hunv2
  · right
    have hr := (hmem _).mp hm
    refine ⟨hr.1, by omega, hunv, hlt, ?_, ?_⟩
    · intro i h1 h2 hunv2
      exact hmin i ((hmem i).mpr ⟨h1, by omega⟩) hunv2
    · intro i h1 h2 hunv2 hdist
      exact htie i ((hmem i).mpr ⟨h1, by omega⟩) hunv2 hdist

/-- markVisited does not change distances. -/
theorem markVisited_dist (vertex : Nat) (row : Row) (w : Nat) :
    (markVisited vertex row w).dist = (row w).dist := by
  by_cases h : w = vertex <;> simp [markVisited, h]

/-- markVisited does not change predecessors. -/
theorem markVisited_path (vertex : Nat) (row : Row) (w : Nat) :
    (markVisited vertex row w).path = (row w).path := by
  by_cases h : w = vertex <;> simp [markVisited, h]

/-- markVisited sets exactly the chosen vertex's visited flag. -/
theorem markVisited_visited (vertex : Nat) (row : Row) (w : Nat) :
    (markVisited vertex row w).visited = if w = vertex then true else (row w).visited := by
  by_cases h : w = vertex <;> simp [markVisited, h]

/-- The Dijkstra per-source loop invariant.  `vs` is the list of vertices
visited so far, in visit order; `s` is the source of the run. -/
structure DInv (g : Graph) (s : Nat) (vs : List Nat) (row : Row) : Prop where
  nodup : vs.Nodup
  mem_range : ∀ v ∈ vs, 1 ≤ v ∧ v ≤ g.size
  visited_iff : ∀ w, (row w).visited = true ↔ w ∈ vs
  head_s : vs = [] ∨ ∃ t, vs = s :: t
  src_dist : (row s).dist = 0
  src_path : (row s).path = s
  dist_lb : ∀ w, 0 ≤ (row w).dist
  dist_ub : ∀ w, (row w).dist ≤ INT_MAX
  visited_fin : ∀ v ∈ vs, (row v).dist < INT_MAX
  fin_pred : ∀ w, w ≠ s → (row w).dist < INT_MAX →
    (row w).path ∈ vs ∧
      ∃ e ∈ g.edges (row w).path, e.adjVertex = w ∧
        (row (row w).path).dist + e.weight = (row w).dist
  inf_path : ∀ w, w ≠ s → ¬ ((row w).dist < INT_MAX) → (row w).path = 0
  chain_lt : ∀ v ∈ vs, v ≠ s → vs.indexOf (row v).path < vs.indexOf v

/-- The invariant holds on the freshly initialised source row. -/
theorem dinv_init (g : Graph) (s : Nat) : DInv g s [] (initRow s) := by
  have hrow : ∀ w, initRow s w = if w = s then { initEntry with dist := 0, path := s } else initEntry := by
    intro w; rfl
  refine ⟨List.nodup_nil, by simp, ?_, Or.inl rfl, ?_, ?_, ?_, ?_, by simp, ?_, ?_, by simp⟩
  · intro w
    rw [hrow w]
    by_cases h : w = s <;> simp [h, initEntry]
  · rw [hrow s]; simp
  · rw [hrow s]; simp
  · intro w
    rw [hrow w]
    by_cases h : w = s
    · simp [h]
    · simp only [if_neg h]
      decide
  · intro w
    rw [hrow w]
    by_cases h : w = s
    · simp [h]
      decide
    · simp only [if_neg h]
      decide
  · intro w hw hfin
    rw [hrow w] at hfin
    rw [if_neg hw] at hfin
    exact absurd hfin (by simp [initEntry])
  · intro w hw _
    rw [hrow w, if_neg hw]
    rfl

/-- Visiting the vertex selected by the scan preserves the invariant, with
the vertex appended to the visit order. -/
theorem dinv_mark (g : Graph) (s : Nat) (vs : List Nat) (row : Row) (vertex : Nat)
    (hinv : DInv g s vs row)
    (hv1 : 1 ≤ vertex) (hv2 : vertex ≤ g.size)
    (hunv : (row vertex).visited = false)
    (hfin : (row vertex).dist < INT_MAX) :
    DInv g s (vs ++ [vertex]) (markVisited vertex row) := by
  have hnotmem : vertex ∉ vs := by
    intro hmem
    rw [(hinv.visited_iff vertex).mpr hmem] at hunv
    exact Bool.noConfusion hunv
  have hsmem : vs = [] → vertex = s := by
    intro hnil
    by_contra hne
    have := (hinv.fin_pred vertex hne hfin).1
    rw [hnil] at this
    exact absurd this (List.not_mem_nil _)
  refine ⟨?_, ?_, ?_, ?_, ?_, ?_, ?_, ?_, ?_, ?_, ?_, ?_⟩
  · simp only [List.nodup_append, List.nodup_cons, List.not_mem_nil, not_false_iff,
      List.nodup_nil, and_true, true_and]
    exact ⟨hinv.nodup, by simp [List.Disjoint]; intro a ha hav; subst hav; exact hnotmem ha⟩
  · intro v hv
    rcases List.mem_append.mp hv with h | h
    · exact hinv.mem_range v h
    · have : v = vertex := by simpa using h
      subst this
      exact ⟨hv1, hv2⟩
  · intro w
    rw [markVisited_visited]
    by_cases h : w = vertex
    · subst h; simp
    · simp only [if_neg h, hinv.visited_iff w, List.mem_append, List.mem_singleton]
      constructor
      · exact fun hm => Or.inl hm
      · intro hm
        rcases hm with hm | hm
        · exact hm
        · exact absurd hm h
  · rcases hinv.head_s with h | ⟨t, h⟩
    · right
      refine ⟨[], ?_⟩
      rw [h, List.nil_append]
      rw [hsmem h]
    · right
      exact ⟨t ++ [vertex], by rw [h]; rfl⟩
  · rw [markVisited_dist]; exact hinv.src_dist
  · rw [markVisited_path]; exact hinv.src_path
  · intro w; rw [markVisited_dist]; exact hinv.dist_lb w
  · intro w; rw [markVisited_dist]; exact hinv.dist_ub w
  · intro v hv
    rw [markVisited_dist]
    rcases List.mem_append.mp hv with h | h
    · exact hinv.visited_fin v h
    · have : v = vertex := by simpa using h
      subst this
      exact hfin
  · intro w hw hfinw
    rw [markVisited_dist] at hfinw
    rw [markVisited_path, markVisited_dist]
    obtain ⟨hpmem, e, he, hadj, heq⟩ := hinv.fin_pred w hw hfinw
    refine ⟨List.mem_append_left _ hpmem, e, he, hadj, ?_⟩
    rw [markVisited_dist]
    exact heq
  · intro w hw hfinw
    rw [markVisited_dist] at hfinw
    rw [markVisited_path]
    exact hinv.inf_path w hw hfinw
  · intro v hv hvs
    rw [markVisited_path]
    rcases List.mem_append.mp hv with h | h
    · have hvfin := hinv.visited_fin v h
      have hpmem := (hinv.fin_pred v hvs hvfin).1
      rw [List.indexOf_append_of_mem hpmem, List.indexOf_append_of_mem h]
      exact hinv.chain_lt v h hvs
    · have : v = vertex := by simpa using h
      subst this
      have hpmem := (hinv.fin_pred v hvs hfin).1
      rw [List.indexOf_append_of_mem hpmem, List.indexOf_append_of_not_mem hnotmem]
      calc vs.indexOf (row v).path < vs.length := List.indexOf_lt_length.mpr hpmem
        _ ≤ vs.length + List.indexOf v [v] := Nat.le_add_right _ _


/-- Relaxing one edge out of a visited vertex preserves the invariant. -/
theorem dinv_relax_edge (g : Graph) (s : Nat) (vs : List Nat) (row : Row)
    (vertex : Nat) (e : EdgeNode)
    (hinv : DInv g s vs row)
    (hv : vertex ∈ vs)
    (he : e ∈ g.edges vertex)
    (hw : 0 ≤ e.weight) :
    DInv g s vs (relaxEdge vertex e row) := by
  by_cases hc : (row e.adjVertex).visited = false ∧
      (row vertex).dist + e.weight < (row e.adjVertex).dist
  · have hva : vertex ≠ e.adjVertex := by
      intro hveq
      have h2 := (hinv.visited_iff vertex).mpr hv
      rw [hveq] at h2
      rw [h2] at hc
      exact Bool.noConfusion hc.1
    have hanotmem : e.adjVertex ∉ vs := by
      intro hmem
      rw [(hinv.visited_iff e.adjVertex).mpr hmem] at hc
      exact Bool.noConfusion hc.1
    have hsa : e.adjVertex ≠ s := by
      intro haeq
      have h0 : (row e.adjVertex).dist = 0 := by rw [haeq]; exact hinv.src_dist
      have h2 := hc.2
      rw [h0] at h2
      have hlb := hinv.dist_lb vertex
      omega
    have hdista : ∀ w, (relaxEdge vertex e row w).dist =
        if w = e.adjVertex then (row vertex).dist + e.weight else (row w).dist := by
      intro w
      rw [relaxEdge, if_pos hc]
      by_cases h : w = e.adjVertex <;> simp [h]
    have hpatha : ∀ w, (relaxEdge vertex e row w).path =
        if w = e.adjVertex then vertex else (row w).path := by
      intro w
      rw [relaxEdge, if_pos hc]
      by_cases h : w = e.adjVertex <;> simp [h]
    have hvisa : ∀ w, (relaxEdge vertex e row w).visited = (row w).visited := by
      intro w
      rw [relaxEdge, if_pos hc]
      by_cases h : w = e.adjVertex <;> simp [h, hc.1]
    have hmemne : ∀ v ∈ vs, v ≠ e.adjVertex := fun v hvm hva2 => hanotmem (hva2 ▸ hvm)
    refine ⟨hinv.nodup, hinv.mem_range, ?_, hinv.head_s, ?_, ?_, ?_, ?_, ?_, ?_, ?_, ?_⟩
    · intro w
      rw [hvisa]
      exact hinv.visited_iff w
    · rw [hdista, if_neg (fun h => hsa h.symm)]
      exact hinv.src_dist
    · rw [hpatha, if_neg (fun h => hsa h.symm)]
      exact hinv.src_path
    · intro w
      rw [hdista]
      by_cases h : w = e.adjVertex
      · rw [if_pos h]
        have := hinv.dist_lb vertex
        omega
      · rw [if_neg h]
        exact hinv.dist_lb w
    · intro w
      rw [hdista]
      by_cases h : w = e.adjVertex
      · rw [if_pos h]
        have h1 := hc.2
        have h2 := hinv.dist_ub e.adjVertex
        omega
      · rw [if_neg h]
        exact hinv.dist_ub w
    · intro v hvm
      rw [hdista, if_neg (hmemne v hvm)]
      exact hinv.visited_fin v hvm
    · intro w hws hfinw
      rw [hdista] at hfinw
      simp only [hdista, hpatha]
      by_cases h : w = e.adjVertex
      · rw [if_pos h] at hfinw ⊢
        rw [if_pos h]
        refine ⟨hv, e, he, h.symm, ?_⟩
        rw [if_neg hva]
      · rw [if_neg h] at hfinw ⊢
        rw [if_neg h]
        obtain ⟨hpmem, e2, he2, hadj2, heq2⟩ := hinv.fin_pred w hws hfinw
        refine ⟨hpmem, e2, he2, hadj2, ?_⟩
        rw [if_neg (hmemne _ hpmem)]
        exact heq2
    · intro w hws hfinw
      rw [hdista] at hfinw
      rw [hpatha]
      by_cases h : w = e.adjVertex
      · rw [if_pos h] at hfinw
        have h1 := hc.2
        have h2 := hinv.dist_ub e.adjVertex
        omega
      · rw [if_neg h] at hfinw
        rw [if_neg h]
        exact hinv.inf_path w hws hfinw
    · intro v hvm hvns
      rw [hpatha, if_neg (hmemne v hvm)]
      exact hinv.chain_lt v hvm hvns
  · rw [relaxEdge, if_neg hc]
    exact hinv

/-- Relaxing a sublist of the visited vertex's adjacency list preserves the
invariant. -/
theorem dinv_relax_list (g : Graph) (s : Nat) (vs : List Nat) (vertex : Nat)
    (hv : vertex ∈ vs) (hwf : WFGraph g) (hv2 : vertex ≤ g.size) :
    ∀ (es : List EdgeNode), (∀ e ∈ es, e ∈ g.edges vertex) →
      ∀ row, DInv g s vs row → DInv g s vs (relaxList vertex es row) := by
  intro es
  induction es with
  | nil =>
    intro _ row hinv
    exact hinv
  | cons e rest ih =>
    intro hsub row hinv
    have he : e ∈ g.edges vertex := hsub e (List.mem_cons_self e rest)
    have hw : 0 ≤ e.weight :=
      (hwf.2 vertex (lt_of_le_of_lt hv2 hwf.1) e he).2.2
    exact ih (fun x hx => hsub x (List.mem_cons_of_mem e hx)) (relaxEdge vertex e row)
      (dinv_relax_edge g s vs row vertex e hinv hv he hw)

/-- One executed loop iteration preserves the invariant, visiting exactly one
new vertex. -/
theorem dinv_step (g : Graph) (s : Nat) (vs : List Nat) (row row2 : Row)
    (hinv : DInv g s vs row) (hwf : WFGraph g)
    (hstep : helperStep g row = some row2) :
    ∃ v, DInv g s (vs ++ [v]) row2 := by
  by_cases hpos : 0 < lowestWeightVertex g.size row
  · have hrow2 : relaxList (lowestWeightVertex g.size row)
        (g.edges (lowestWeightVertex g.size row))
        (markVisited (lowestWeightVertex g.size row) row) = row2 := by
      simpa [helperStep, hpos] using hstep
    rcases lowestWeightVertex_spec g.size row with ⟨h0, _⟩ | ⟨h1, h2, hunv, hfin, _, _⟩
    · omega
    · refine ⟨lowestWeightVertex g.size row, ?_⟩
      rw [← hrow2]
      refine dinv_relax_list g s (vs ++ [lowestWeightVertex g.size row])
        (lowestWeightVertex g.size row) (by simp) hwf h2
        (g.edges (lowestWeightVertex g.size row)) (fun e he => he)
        (markVisited (lowestWeightVertex g.size row) row)
        (dinv_mark g s vs row (lowestWeightVertex g.size row) hinv h1 h2 hunv hfin)
  · exact absurd hstep (by simp [helperStep, hpos])

/-- Running the loop preserves the invariant, visiting at most one new vertex
per remaining iteration. -/
theorem dinv_loop (g : Graph) (s : Nat) (hwf : WFGraph g) :
    ∀ (n : Nat) (row : Row) (vs : List Nat), DInv g s vs row →
      ∃ vs2, DInv g s vs2 (helperLoop g n row) ∧ vs2.length ≤ vs.length + n := by
  intro n
  induction n with
  | zero =>
    intro row vs hinv
    exact ⟨vs, hinv, by omega⟩
  | succ n ih =>
    intro row vs hinv
    cases hstep : helperStep g row with
    | none =>
      refine ⟨vs, ?_, by omega⟩
      have h2 : helperLoop g (n + 1) row = row := by simp [helperLoop, hstep]
      rw [h2]
      exact hinv
    | some row2 =>
      obtain ⟨v, hinv2⟩ := dinv_step g s vs row row2 hinv hwf hstep
      obtain ⟨vs2, hl, hlen⟩ := ih row2 (vs ++ [v]) hinv2
      refine ⟨vs2, ?_, ?_⟩
      · have h2 : helperLoop g (n + 1) row = helperLoop g n row2 := by
          simp [helperLoop, hstep]
        rw [h2]
        exact hl
      · simp at hlen
        omega

/-- The invariant at the end of one source run, with at most `size - 1`
visited vertices. -/
theorem dinv_final (g : Graph) (s : Nat) (hwf : WFGraph g) :
    ∃ vs, DInv g s vs (findShortestPathHelper g s) ∧ vs.length ≤ g.size - 1 := by
  obtain ⟨vs, h, hlen⟩ := dinv_loop g s hwf (g.size - 1) (initRow s) [] (dinv_init g s)
  exact ⟨vs, h, by simpa using hlen⟩

/-- The vertex a walk starting at `u` and passing through `l` ends at. -/
def endAt (u : Nat) (l : List Nat) : Nat := l.getLast?.getD u

/-- endAt of a cons walks into the tail. -/
theorem endAt_cons (u a : Nat) (l : List Nat) : endAt u (a :: l) = endAt a l := by
  cases l with
  | nil => rfl
  | cons b t =>
    simp only [endAt, List.getLast?_cons_cons]
    rw [List.getLast?_eq_getLast (b :: t) (by simp)]
    rfl

/-- endAt of a snoc is the appended vertex. -/
theorem endAt_concat (u v : Nat) (l : List Nat) : endAt u (l ++ [v]) = v := by
  simp [endAt, List.getLast?_concat]

/-- Extending a chain by one edge leaving its endpoint. -/
theorem chainSum_snoc (g : Graph) :
    ∀ (l : List Nat) (u : Nat) (t : Int) (v : Nat) (e : EdgeNode),
      chainSum g u l t → e ∈ g.edges (endAt u l) → e.adjVertex = v →
      chainSum g u (l ++ [v]) (t + e.weight) := by
  intro l
  induction l with
  | nil =>
    intro u t v e hsum hmem hadj
    have ht : t = 0 := hsum
    subst ht
    exact ⟨e, hmem, hadj, 0, rfl, by ring⟩
  | cons a rest ih =>
    intro u t v e hsum hmem hadj
    obtain ⟨e1, he1, hadj1, t1, hsum1, ht⟩ := hsum
    have hmem2 : e ∈ g.edges (endAt a rest) := by rw [← endAt_cons u]; exact hmem
    exact ⟨e1, he1, hadj1, t1 + e.weight, ih a t1 v e hsum1 hmem2 hadj, by omega⟩

/-- Main chain lemma: from any visited vertex, the predecessor links print a
path that starts at the source, ends at the vertex, is a chain of graph
edges, and whose accumulated weight is exactly the recorded distance.  The
induction is on the position of the vertex in the visit order. -/
theorem chain_of_visited (g : Graph) (s : Nat) (vs : List Nat) (row : Row)
    (hinv : DInv g s vs row) (hs1 : 1 ≤ s) :
    ∀ n, ∀ v ∈ vs, vs.indexOf v = n →
      ∃ l, (∀ fuel, n + 1 ≤ fuel → printPathFuel row s fuel v = s :: l) ∧
        chainSum g s l ((row v).dist) ∧
        l.length ≤ n ∧
        endAt s l = v ∧
        (v ≠ s → l ≠ []) := by
  intro n
  induction n using Nat.strong_induction_on with
  | _ n ih =>
    intro v hv hidx
    by_cases hvs : v = s
    · subst hvs
      refine ⟨[], ?_, hinv.src_dist, by simp, rfl, fun h => absurd rfl h⟩
      intro fuel hfuel
      obtain ⟨f, rfl⟩ : ∃ f, fuel = f + 1 := ⟨fuel - 1, by omega⟩
      simp only [printPathFuel]
      rw [hinv.src_path]
      rw [if_pos (by omega : 0 < v)]
      simp
    · have hfin := hinv.visited_fin v hv
      obtain ⟨hpmem, e, he, hadj, heq⟩ := hinv.fin_pred v hvs hfin
      have hm : vs.indexOf (row v).path < n := hidx ▸ hinv.chain_lt v hv hvs
      obtain ⟨lp, hprint, hsum, hlen, hend, _⟩ :=
        ih (vs.indexOf (row v).path) hm (row v).path hpmem rfl
      refine ⟨lp ++ [v], ?_, ?_, ?_, endAt_concat s v lp, fun _ => by simp⟩
      · intro fuel hfuel
        obtain ⟨f, rfl⟩ : ∃ f, fuel = f + 1 := ⟨fuel - 1, by omega⟩
        simp only [printPathFuel]
        have hp1 : 1 ≤ (row v).path := (hinv.mem_range _ hpmem).1
        rw [if_pos (by omega : 0 < (row v).path)]
        have hsv : s ≠ v := fun h => hvs h.symm
        rw [if_pos hsv]
        rw [hprint f (by omega)]
        simp
      · have hstep := chainSum_snoc g lp s ((row (row v).path).dist) v e hsum
          (by rw [hend]; exact he) hadj
        rw [heq] at hstep
        exact hstep
      · simp only [List.length_append, List.length_singleton]
        omega

/-- For an in-range source, the computed table row is the helper's row. -/
theorem computeAllPairs_row (g : Graph) (s : Nat) (hs1 : 1 ≤ s) (hs2 : s ≤ g.size) :
    (computeAllPairs g).T s = findShortestPathHelper g s := by
  simp [computeAllPairs, findShortestPath, hs1, hs2]

/-- C1: after the all-pairs computation, for every ordered pair `(s, d)` with
`s ≠ d` whose reported distance is finite, the sequence printPath walks is a
chain starting at `s`, ending at `d`, following edges present in the graph,
and the traversed edge weights sum to exactly the reported `dist[s][d]`. -/
theorem dijkstra_path_weight_correct (g : Graph) (s d : Nat)
    (hwf : WFGraph g) (hs1 : 1 ≤ s) (hs2 : s ≤ g.size)
    (hd1 : 1 ≤ d) (hd2 : d ≤ g.size) (hne : s ≠ d)
    (hfin : ((computeAllPairs g).T s d).dist < INT_MAX) :
    ∃ l, printPathSeq (computeAllPairs g) s d = s :: l ∧
      l.getLast? = some d ∧
      chainSum g s l (((computeAllPairs g).T s d).dist) := by
  have hrow : (computeAllPairs g).T s = findShortestPathHelper g s :=
    computeAllPairs_row g s hs1 hs2
  obtain ⟨vs, hinv, hlen⟩ := dinv_final g s hwf
  rw [hrow] at hfin ⊢
  have hpps : printPathSeq (computeAllPairs g) s d =
      printPathFuel (findShortestPathHelper g s) s g.size d := by
    rw [printPathSeq, hrow]
    rfl
  by_cases hd : d ∈ vs
  · obtain ⟨l, hprint, hsum, hlen2, hend, hne2⟩ :=
      chain_of_visited g s vs (findShortestPathHelper g s) hinv hs1 (vs.indexOf d) d hd rfl
    have hidx : vs.indexOf d < vs.length := List.indexOf_lt_length.mpr hd
    have hnil : l ≠ [] := hne2 (fun h => hne h.symm)
    refine ⟨l, ?_, ?_, hsum⟩
    · rw [hpps]
      exact hprint g.size (by omega)
    · have hsome : l.getLast? = some (l.getLast hnil) := List.getLast?_eq_getLast l hnil
      have hend2 : l.getLast hnil = d := by
        rw [endAt, hsome] at hend
        simpa using hend
      rw [hsome, hend2]
  · have hdns : d ≠ s := fun h => hne h.symm
    obtain ⟨hpmem, e, he, hadj, heq⟩ := hinv.fin_pred d hdns hfin
    obtain ⟨lp, hprint, hsum, hlenp, hend, _⟩ :=
      chain_of_visited g s vs (findShortestPathHelper g s) hinv hs1
        (vs.indexOf ((findShortestPathHelper g s) d).path)
        ((findShortestPathHelper g s) d).path hpmem rfl
    have hidx : vs.indexOf ((findShortestPathHelper g s) d).path < vs.length :=
      List.indexOf_lt_length.mpr hpmem
    have hsz1 : 1 ≤ g.size := le_trans hs1 hs2
    obtain ⟨f, hf⟩ : ∃ f, g.size = f + 1 := ⟨g.size - 1, by omega⟩
    refine ⟨lp ++ [d], ?_, List.getLast?_concat _, ?_⟩
    · rw [hpps, hf]
      simp only [printPathFuel]
      have hp1 : 1 ≤ ((findShortestPathHelper g s) d).path := (hinv.mem_range _ hpmem).1
      rw [if_pos (by omega : 0 < ((findShortestPathHelper g s) d).path)]
      rw [if_pos hne]
      rw [hprint f (by omega)]
      simp
    · have hstep := chainSum_snoc g lp s
        ((findShortestPathHelper g s) (((findShortestPathHelper g s) d).path)).dist d e
        hsum (by rw [hend]; exact he) hadj
      rw [heq] at hstep
      exact hstep

/-- Witness for dijkstra_path_weight_correct on the spec's three-vertex
scenario: pair (1,3) has distance 7 and the printed chain is as promised. -/
theorem dijkstra_path_weight_correct_witness :
    WFGraph exampleGraph ∧
      ∃ l, printPathSeq (computeAllPairs exampleGraph) 1 3 = 1 :: l ∧
        l.getLast? = some 3 ∧
        chainSum exampleGraph 1 l (((computeAllPairs exampleGraph).T 1 3).dist) :=
  ⟨by decide,
    dijkstra_path_weight_correct exampleGraph 1 3 (by decide) (by decide) (by decide)
      (by decide) (by decide) (by decide) (by decide)⟩

/-- One step of the predecessor walk: `destination = T[source][destination].path`. -/
def predStep (row : Row) (x : Nat) : Nat := (row x).path

/-- From any visited vertex, iterating the predecessor link reaches the
source in at most its visit position many steps, with non-increasing
distances along the walk. -/
theorem walk_of_visited (g : Graph) (s : Nat) (vs : List Nat) (row : Row)
    (hinv : DInv g s vs row) (hwf : WFGraph g) :
    ∀ n, ∀ v ∈ vs, vs.indexOf v = n →
      ∃ k ≤ n, (predStep row)^[k] v = s ∧
        ∀ i < k, (row ((predStep row)^[i + 1] v)).dist ≤
          (row ((predStep row)^[i] v)).dist := by
  intro n
  induction n using Nat.strong_induction_on with
  | _ n ih =>
    intro v hv hidx
    by_cases hvs : v = s
    · subst hvs
      exact ⟨0, Nat.zero_le n, rfl, fun i hi => absurd hi (Nat.not_lt_zero i)⟩
    · have hfin := hinv.visited_fin v hv
      obtain ⟨hpmem, e, he, hadj, heq⟩ := hinv.fin_pred v hvs hfin
      have hm : vs.indexOf (row v).path < n := hidx ▸ hinv.chain_lt v hv hvs
      obtain ⟨k, hk, hiter, hmono⟩ := ih _ hm _ hpmem rfl
      have hshift : ∀ m, (predStep row)^[m + 1] v = (predStep row)^[m] ((row v).path) := by
        intro m
        rw [Function.iterate_succ_apply]
        rfl
      have hw : 0 ≤ e.weight := by
        have hp2 := (hinv.mem_range _ hpmem).2
        exact (hwf.2 (row v).path (lt_of_le_of_lt hp2 hwf.1) e he).2.2
      refine ⟨k + 1, by omega, ?_, ?_⟩
      · rw [hshift k]
        exact hiter
      · intro i hi
        cases i with
        | zero =>
          rw [hshift 0]
          simp only [Function.iterate_zero, id_eq]
          omega
        | succ j =>
          rw [hshift (j + 1), hshift j]
          exact hmono j (by omega)

/-- C4: after the all-pairs computation, for every in-range pair with a
finite distance, the predecessor walk from the destination reaches the
source in at most `size - 1` steps, and the recorded distances along the
walk never increase. -/
theorem pred_walk_reaches_source (g : Graph) (s d : Nat)
    (hwf : WFGraph g) (hs1 : 1 ≤ s) (hs2 : s ≤ g.size)
    (hd1 : 1 ≤ d) (hd2 : d ≤ g.size)
    (hfin : ((computeAllPairs g).T s d).dist < INT_MAX) :
    ∃ k ≤ g.size - 1,
      (predStep ((computeAllPairs g).T s))^[k] d = s ∧
        ∀ i < k,
          (((computeAllPairs g).T s) ((predStep ((computeAllPairs g).T s))^[i + 1] d)).dist ≤
            (((computeAllPairs g).T s) ((predStep ((computeAllPairs g).T s))^[i] d)).dist := by
  have hrow : (computeAllPairs g).T s = findShortestPathHelper g s :=
    computeAllPairs_row g s hs1 hs2
  rw [hrow] at hfin ⊢
  obtain ⟨vs, hinv, hlen⟩ := dinv_final g s hwf
  by_cases hds : d = s
  · subst hds
    exact ⟨0, Nat.zero_le _, rfl, fun i hi => absurd hi (Nat.not_lt_zero i)⟩
  · by_cases hd : d ∈ vs
    · obtain ⟨k, hk, hiter, hmono⟩ :=
        walk_of_visited g s vs (findShortestPathHelper g s) hinv hwf (vs.indexOf d) d hd rfl
      have hidx := List.indexOf_lt_length.mpr hd
      exact ⟨k, by omega, hiter, hmono⟩
    · obtain ⟨hpmem, e, he, hadj, heq⟩ := hinv.fin_pred d hds hfin
      obtain ⟨k, hk, hiter, hmono⟩ :=
        walk_of_visited g s vs (findShortestPathHelper g s) hinv hwf
          (vs.indexOf ((findShortestPathHelper g s) d).path) _ hpmem rfl
      have hidx := List.indexOf_lt_length.mpr hpmem
      have hshift : ∀ m, (predStep (findShortestPathHelper g s))^[m + 1] d =
          (predStep (findShortestPathHelper g s))^[m]
            (((findShortestPathHelper g s) d).path) := by
        intro m
        rw [Function.iterate_succ_apply]
        rfl
      have hw : 0 ≤ e.weight := by
        have hp2 := (hinv.mem_range _ hpmem).2
        exact (hwf.2 ((findShortestPathHelper g s) d).path
          (lt_of_le_of_lt hp2 hwf.1) e he).2.2
      refine ⟨k + 1, by omega, ?_, ?_⟩
      · rw [hshift k]
        exact hiter
      · intro i hi
        cases i with
        | zero =>
          rw [hshift 0]
          simp only [Function.iterate_zero, id_eq]
          omega
        | succ j =>
          rw [hshift (j + 1), hshift j]
          exact hmono j (by omega)

/-- Witness for pred_walk_reaches_source on the three-vertex scenario, pair
(1,3). -/
theorem pred_walk_reaches_source_witness :
    WFGraph exampleGraph ∧
      ∃ k ≤ exampleGraph.size - 1,
        (predStep ((computeAllPairs exampleGraph).T 1))^[k] 3 = 1 ∧
          ∀ i < k,
            (((computeAllPairs exampleGraph).T 1)
                ((predStep ((computeAllPairs exampleGraph).T 1))^[i + 1] 3)).dist ≤
              (((computeAllPairs exampleGraph).T 1)
                ((predStep ((computeAllPairs exampleGraph).T 1))^[i] 3)).dist :=
  ⟨by decide,
    pred_walk_reaches_source exampleGraph 1 3 (by decide) (by decide) (by decide)
      (by decide) (by decide) (by decide)⟩

/-- C5 counterexample: on a one-vertex graph, after the computation printPath
walks the single vertex 1 for the pair (1,1) (since `T[1][1].path = 1 > 0`
the destination is printed), so `path(v, v)` is not the empty sequence. -/
theorem path_self_nonempty_cex :
    ¬ (printPathSeq (computeAllPairs oneVertexGraph) 1 1 = []) := by decide

/-- C5 amended: after computeAllPairs, `distance(v, v) = 0` for every vertex
`v` in `1..size`, but `path(v, v)` is the one-element sequence `[v]`, not the
empty sequence (printPath prints the destination once because
`T[v][v].path = v > 0`); for every in-range pair whose distance is the
infinite sentinel, the sequence is empty. -/
theorem diag_and_unreachable_spec (g : Graph) (hwf : WFGraph g) :
    (∀ v, 1 ≤ v → v ≤ g.size →
      ((computeAllPairs g).T v v).dist = 0 ∧
        printPathSeq (computeAllPairs g) v v = [v]) ∧
    (∀ s d, 1 ≤ s → s ≤ g.size → 1 ≤ d → d ≤ g.size →
      ¬ (((computeAllPairs g).T s d).dist < INT_MAX) →
      printPathSeq (computeAllPairs g) s d = []) := by
  constructor
  · intro v h1 h2
    have hrow : (computeAllPairs g).T v = findShortestPathHelper g v :=
      computeAllPairs_row g v h1 h2
    obtain ⟨vs, hinv, hlen⟩ := dinv_final g v hwf
    rw [hrow]
    refine ⟨hinv.src_dist, ?_⟩
    rw [printPathSeq, hrow]
    obtain ⟨f, hf⟩ : ∃ f, g.size = f + 1 := ⟨g.size - 1, by omega⟩
    rw [show (computeAllPairs g).size = g.size from rfl, hf]
    simp only [printPathFuel]
    rw [hinv.src_path]
    rw [if_pos (by omega : 0 < v)]
    simp
  · intro s d h1 h2 h3 h4 hinf
    have hrow : (computeAllPairs g).T s = findShortestPathHelper g s :=
      computeAllPairs_row g s h1 h2
    obtain ⟨vs, hinv, hlen⟩ := dinv_final g s hwf
    rw [hrow] at hinf
    by_cases hds : d = s
    · subst hds
      refine absurd ?_ hinf
      rw [hinv.src_dist]
      decide
    · have hpath0 := hinv.inf_path d hds hinf
      rw [printPathSeq, hrow]
      obtain ⟨f, hf⟩ : ∃ f, g.size = f + 1 := ⟨g.size - 1, by omega⟩
      rw [show (computeAllPairs g).size = g.size from rfl, hf]
      simp only [printPathFuel]
      rw [hpath0]
      simp

/-- Witness for diag_and_unreachable_spec: on the three-vertex scenario,
`distance(1,1) = 0` with path `[1]`, and the unreachable pair (3,1) yields
the empty sequence. -/
theorem diag_and_unreachable_spec_witness :
    (((computeAllPairs exampleGraph).T 1 1).dist = 0 ∧
        printPathSeq (computeAllPairs exampleGraph) 1 1 = [1]) ∧
      printPathSeq (computeAllPairs exampleGraph) 3 1 = [] :=
  ⟨(diag_and_unreachable_spec exampleGraph (by decide)).1 1 (by decide) (by decide),
    (diag_and_unreachable_spec exampleGraph (by decide)).2 3 1 (by decide) (by decide)
      (by decide) (by decide) (by decide)⟩

/-- Number of times the relax-loop body actually executes within one source
run (an iteration `i` of the `for` loop counts only when lowestWeightVertex
returned a vertex; the early `return` stops counting). -/
def helperLoopCount (g : Graph) : Nat → Row → Nat
  | 0, _ => 0
  | n + 1, row =>
    match helperStep g row with
    | some row2 => helperLoopCount g n row2 + 1
    | none => 0

/-- The executed iteration count of findShortestPathHelper for one source. -/
def helperIters (g : Graph) (source : Nat) : Nat :=
  helperLoopCount g (g.size - 1) (initRow source)

/-- The executed iteration count never exceeds the loop bound. -/
theorem helperLoopCount_le (g : Graph) :
    ∀ (n : Nat) (row : Row), helperLoopCount g n row ≤ n := by
  intro n
  induction n with
  | zero => intro row; exact Nat.le_refl 0
  | succ n ih =>
    intro row
    rw [helperLoopCount]
    cases helperStep g row with
    | some row2 =>
      have := ih row2
      show helperLoopCount g n row2 + 1 ≤ n + 1
      omega
    | none =>
      show 0 ≤ n + 1
      omega

/-- C3: within one per-source run the relax-loop body executes at most
`size - 1` times; a step is taken exactly when some unvisited vertex has a
finite distance, and the vertex it finalises is the unvisited in-range
vertex of minimum finite distance with ties broken towards the lowest
identifier; when no such vertex exists the loop returns immediately,
leaving the row unchanged. -/
theorem relax_loop_selection_spec (g : Graph) (source : Nat) :
    helperIters g source ≤ g.size - 1 ∧
      (∀ row : Row,
        (helperStep g row = none ↔
          ∀ i, 1 ≤ i → i ≤ g.size → (row i).visited = false →
            ¬ ((row i).dist < INT_MAX))) ∧
      (∀ row row2 : Row, helperStep g row = some row2 →
        (1 ≤ lowestWeightVertex g.size row ∧ lowestWeightVertex g.size row ≤ g.size ∧
          (row (lowestWeightVertex g.size row)).visited = false ∧
          (row (lowestWeightVertex g.size row)).dist < INT_MAX ∧
          (∀ i, 1 ≤ i → i ≤ g.size → (row i).visited = false →
            (row (lowestWeightVertex g.size row)).dist ≤ (row i).dist) ∧
          (∀ i, 1 ≤ i → i ≤ g.size → (row i).visited = false →
            (row i).dist = (row (lowestWeightVertex g.size row)).dist →
            lowestWeightVertex g.size row ≤ i)) ∧
        row2 = relaxList (lowestWeightVertex g.size row)
          (g.edges (lowestWeightVertex g.size row))
          (markVisited (lowestWeightVertex g.size row) row)) ∧
      (∀ (n : Nat) (row : Row), helperStep g row = none → helperLoop g n row = row) := by
  refine ⟨helperLoopCount_le g (g.size - 1) (initRow source), ?_, ?_, ?_⟩
  · intro row
    constructor
    · intro hnone
      have h0 : ¬ 0 < lowestWeightVertex g.size row := by
        intro hpos
        simp [helperStep, hpos] at hnone
      rcases lowestWeightVertex_spec g.size row with ⟨_, hprop⟩ | ⟨h1, _⟩
      · exact hprop
      · omega
    · intro hprop
      rcases lowestWeightVertex_spec g.size row with ⟨h0, _⟩ | ⟨h1, h2, hunv, hfin, _⟩
      · simp [helperStep, h0]
      · exact absurd hfin (hprop _ h1 h2 hunv)
  · intro row row2 hstep
    have hpos : 0 < lowestWeightVertex g.size row := by
      by_contra h0
      simp [helperStep, h0] at hstep
    rcases lowestWeightVertex_spec g.size row with ⟨h0, _⟩ | ⟨h1, h2, hunv, hfin, hmin, htie⟩
    · omega
    · refine ⟨⟨h1, h2, hunv, hfin, hmin, htie⟩, ?_⟩
      have h3 : some (relaxList (lowestWeightVertex g.size row)
          (g.edges (lowestWeightVertex g.size row))
          (markVisited (lowestWeightVertex g.size row) row)) = some row2 := by
        simpa [helperStep, hpos] using hstep
      exact (Option.some.inj h3).symm
  · intro n row hnone
    cases n with
    | zero => rfl
    | succ n => simp [helperLoop, hnone]

/-- A row in which every vertex is already visited: the scan finds nothing. -/
def allVisitedRow : Row := fun _ => { visited := true, dist := 0, path := 0 }

/-- Witness for relax_loop_selection_spec: the count bound at the example
graph and the immediate-termination clause on a fully visited row. -/
theorem relax_loop_selection_spec_witness :
    helperIters exampleGraph 1 ≤ exampleGraph.size - 1 ∧
      helperLoop exampleGraph 5 allVisitedRow = allVisitedRow :=
  ⟨(relax_loop_selection_spec exampleGraph 1).1,
    (relax_loop_selection_spec exampleGraph 1).2.2.2 5 allVisitedRow
      (((relax_loop_selection_spec exampleGraph 1).2.1 allVisitedRow).mpr
        (fun i h1 h2 hv => absurd hv (by simp [allVisitedRow])))⟩

/-- Heap model for the deep-copy claim, where pointer identity itself
matters.  A cell is one C++ EdgeNode record: destination, weight, and the
nextEdge pointer (`none` = nullptr). -/
structure Cell where
  adjVertex : Nat
  weight : Int
  nextEdge : Option Nat
deriving DecidableEq

/-- An allocator heap: cell contents per address plus the next fresh
address; `new EdgeNode` returns address `nextFree` and bumps it. -/
structure Heap where
  mem : Nat → Cell
  nextFree : Nat

/-- Assignment through a pointer: `*a = c`. -/
def heapWrite (h : Heap) (a : Nat) (c : Cell) : Heap :=
  { h with mem := fun x => if x = a then c else h.mem x }

/-- `new EdgeNode` followed by the field assignments. -/
def allocCell (h : Heap) (c : Cell) : Heap :=
  { mem := fun x => if x = h.nextFree then c else h.mem x, nextFree := h.nextFree + 1 }

/-- `ChainIs h p l`: starting from pointer `p` the heap holds a
null-terminated linked list that visits exactly the
(address, adjVertex, weight) triples of `l`, in order. -/
inductive ChainIs (h : Heap) : Option Nat → List (Nat × Nat × Int) → Prop
  | nil : ChainIs h none []
  | cons (a : Nat) (l : List (Nat × Nat × Int)) :
      ChainIs h (h.mem a).nextEdge l →
      ChainIs h (some a) ((a, (h.mem a).adjVertex, (h.mem a).weight) :: l)

/-- The addresses a chain occupies. -/
def chainAddrs (l : List (Nat × Nat × Int)) : List Nat := l.map (fun x => x.1)

/-- The observable (adjVertex, weight) content of a chain. -/
def chainVals (l : List (Nat × Nat × Int)) : List (Nat × Int) :=
  l.map (fun x => (x.2.1, x.2.2))

/-- A chain only depends on the heap at its own addresses. -/
theorem chainIs_frame (h h2 : Heap) :
    ∀ (p : Option Nat) (l : List (Nat × Nat × Int)), ChainIs h p l →
      (∀ a ∈ chainAddrs l, h2.mem a = h.mem a) → ChainIs h2 p l := by
  intro p l hc
  induction hc with
  | nil => exact fun _ => ChainIs.nil
  | cons a l htail ih =>
    intro hagree
    have ha : h2.mem a = h.mem a := hagree a (by simp [chainAddrs])
    have htail2 : ChainIs h2 (h2.mem a).nextEdge l := by
      rw [ha]
      exact ih (fun x hx => hagree x (by simp [chainAddrs] at hx ⊢; exact Or.inr hx))
    have hcons := ChainIs.cons (h := h2) a l htail2
    rw [ha] at hcons
    exact hcons

/-- The per-list copy loop of Graph::copyGraph (Graph.cpp 489-513): each
source node is copied into a freshly allocated node (fields copied, nextEdge
nulled), and the predecessor's nextEdge is patched to the new node.  The
C++ while loop patches the previous node when appending its successor; the
recursion here patches the current node once its tail has been built --
the writes performed and the resulting heap are identical.  The fuel bounds
the walk; on a valid (finite, null-terminated) source chain any fuel at
least its length gives the real result. -/
def copyChain (h : Heap) : Nat → Option Nat → Option Nat × Heap
  | _, none => (none, h)
  | 0, some _ => (none, h)
  | fuel + 1, some a =>
    (some h.nextFree,
      heapWrite
        (copyChain
          (allocCell h
            { adjVertex := (h.mem a).adjVertex, weight := (h.mem a).weight,
              nextEdge := none })
          fuel (h.mem a).nextEdge).2
        h.nextFree
        { adjVertex := (h.mem a).adjVertex, weight := (h.mem a).weight,
          nextEdge :=
            (copyChain
              (allocCell h
                { adjVertex := (h.mem a).adjVertex, weight := (h.mem a).weight,
                  nextEdge := none })
              fuel (h.mem a).nextEdge).1 })

/-- copyChain builds, entirely in fresh addresses, a chain with the same
values in the same order, and does not touch any existing address. -/
theorem copyChain_spec :
    ∀ (l : List (Nat × Nat × Int)) (h : Heap) (fuel : Nat) (p : Option Nat),
      ChainIs h p l → l.length ≤ fuel →
      (∀ a ∈ chainAddrs l, a < h.nextFree) →
      ∃ l2,
        ChainIs (copyChain h fuel p).2 (copyChain h fuel p).1 l2 ∧
          chainVals l2 = chainVals l ∧
          chainAddrs l2 = List.range' h.nextFree l.length ∧
          (copyChain h fuel p).2.nextFree = h.nextFree + l.length ∧
          (∀ a, a < h.nextFree → (copyChain h fuel p).2.mem a = h.mem a) := by
  intro l
  induction l with
  | nil =>
    intro h fuel p hc _ _
    cases hc with
    | nil =>
      refine ⟨[], ?_, rfl, rfl, by simp [copyChain], ?_⟩
      · cases fuel <;> exact ChainIs.nil
      · intro a _
        cases fuel <;> rfl
  | cons x rest ih =>
    intro h fuel p hc hfuel haddr
    cases hc with
    | cons a l htail =>
      obtain ⟨f, rfl⟩ : ∃ f, fuel = f + 1 := ⟨fuel - 1, by simp at hfuel; omega⟩
      have hrestlen : rest.length ≤ f := by simp at hfuel; omega
      have hrestaddr : ∀ b ∈ chainAddrs rest, b < h.nextFree := by
        intro b hb
        exact haddr b (by simp [chainAddrs] at hb ⊢; exact Or.inr hb)
      have haself : a < h.nextFree := haddr a (by simp [chainAddrs])
      have htail1 : ChainIs (allocCell h
          { adjVertex := (h.mem a).adjVertex, weight := (h.mem a).weight,
            nextEdge := none }) (h.mem a).nextEdge rest := by
        refine chainIs_frame h _ _ _ htail ?_
        intro b hb
        have hblt := hrestaddr b hb
        simp [allocCell]
        omega
      obtain ⟨l2r, hc2, hvals2, haddrs2, hnf2, hmem2⟩ :=
        ih (allocCell h
          { adjVertex := (h.mem a).adjVertex, weight := (h.mem a).weight,
            nextEdge := none }) f (h.mem a).nextEdge htail1 hrestlen
          (by
            intro b hb
            have := hrestaddr b hb
            simp [allocCell]
            omega)
      have hnf1 : (allocCell h
          { adjVertex := (h.mem a).adjVertex, weight := (h.mem a).weight,
            nextEdge := none }).nextFree = h.nextFree + 1 := rfl
      rw [hnf1] at haddrs2 hnf2
      refine ⟨(h.nextFree, (h.mem a).adjVertex, (h.mem a).weight) :: l2r, ?_, ?_, ?_, ?_, ?_⟩
      · show ChainIs _ (some h.nextFree) _
        have hfreshaddr : ∀ b ∈ chainAddrs l2r, b ≠ h.nextFree := by
          intro b hb
          rw [haddrs2] at hb
          have := List.mem_range'_1.mp hb
          omega
        have htail3 : ChainIs
            (heapWrite
              (copyChain (allocCell h
                { adjVertex := (h.mem a).adjVertex, weight := (h.mem a).weight,
                  nextEdge := none }) f (h.mem a).nextEdge).2
              h.nextFree
              { adjVertex := (h.mem a).adjVertex, weight := (h.mem a).weight,
                nextEdge :=
                  (copyChain (allocCell h
                    { adjVertex := (h.mem a).adjVertex, weight := (h.mem a).weight,
                      nextEdge := none }) f (h.mem a).nextEdge).1 })
            (copyChain (allocCell h
              { adjVertex := (h.mem a).adjVertex, weight := (h.mem a).weight,
                nextEdge := none }) f (h.mem a).nextEdge).1 l2r := by
          refine chainIs_frame _ _ _ _ hc2 ?_
          intro b hb
          simp [heapWrite, hfreshaddr b hb]
        have hmemhead : (heapWrite
            (copyChain (allocCell h
              { adjVertex := (h.mem a).adjVertex, weight := (h.mem a).weight,
                nextEdge := none }) f (h.mem a).nextEdge).2
            h.nextFree
            { adjVertex := (h.mem a).adjVertex, weight := (h.mem a).weight,
              nextEdge :=
                (copyChain (allocCell h
                  { adjVertex := (h.mem a).adjVertex, weight := (h.mem a).weight,
                    nextEdge := none }) f (h.mem a).nextEdge).1 }).mem h.nextFree =
            { adjVertex := (h.mem a).adjVertex, weight := (h.mem a).weight,
              nextEdge :=
                (copyChain (allocCell h
                  { adjVertex := (h.mem a).adjVertex, weight := (h.mem a).weight,
                    nextEdge := none }) f (h.mem a).nextEdge).1 } := by
          simp [heapWrite]
        have hcons := ChainIs.cons (h := heapWrite
            (copyChain (allocCell h
              { adjVertex := (h.mem a).adjVertex, weight := (h.mem a).weight,
                nextEdge := none }) f (h.mem a).nextEdge).2
            h.nextFree
            { adjVertex := (h.mem a).adjVertex, weight := (h.mem a).weight,
              nextEdge :=
                (copyChain (allocCell h
                  { adjVertex := (h.mem a).adjVertex, weight := (h.mem a).weight,
                    nextEdge := none }) f (h.mem a).nextEdge).1 })
          h.nextFree l2r (by rw [hmemhead]; exact htail3)
        rw [hmemhead] at hcons
        exact hcons
      · simp [chainVals] at hvals2 ⊢
        exact hvals2
      · show h.nextFree :: chainAddrs l2r = List.range' h.nextFree (rest.length + 1)
        rw [haddrs2, List.range'_succ]
      · show (heapWrite _ _ _).nextFree = _
        simp only [heapWrite, List.length_cons]
        rw [hnf2]
        omega
      · intro b hblt
        show (heapWrite _ _ _).mem b = h.mem b
        have hbne : b ≠ h.nextFree := by omega
        simp only [heapWrite, if_neg hbne]
        rw [hmem2 b (by omega)]
        simp [allocCell, if_neg hbne]

/-- The Graph object in the heap model: as `Graph`, but each adjacency list
is an edgeHead pointer into a Heap. -/
structure HGraph where
  size : Nat
  edgeHead : Nat → Option Nat
  labels : Nat → Option String
  T : Nat → Nat → Entry

/-- The vertex loop of Graph::copyGraph (Graph.cpp 483-514): for each index,
copy the label by value and rebuild the adjacency list via the chain copy,
threading the heap through. -/
def copyVerts (fromG : HGraph) (fuel : Nat) : List Nat → HGraph → Heap → HGraph × Heap
  | [], g, h => (g, h)
  | i :: rest, g, h =>
    copyVerts fromG fuel rest
      { g with
        edgeHead := fun x =>
          if x = i then (copyChain h fuel (fromG.edgeHead i)).1 else g.edgeHead x,
        labels := fun x => if x = i then fromG.labels i else g.labels x }
      (copyChain h fuel (fromG.edgeHead i)).2

/-- The vertex loop builds, per index, an independent copy of the source
chain in fresh addresses, never touching pre-existing addresses, and leaves
slots outside the index list alone. -/
theorem copyVerts_spec (fromG : HGraph) (fuel : Nat)
    (ls : Nat → List (Nat × Nat × Int)) (h0 : Heap) :
    ∀ (idxs : List Nat), idxs.Nodup →
      ∀ (g : HGraph) (h : Heap),
      (∀ i ∈ idxs, ChainIs h0 (fromG.edgeHead i) (ls i) ∧
        (∀ a ∈ chainAddrs (ls i), a < h0.nextFree) ∧ (ls i).length ≤ fuel) →
      h0.nextFree ≤ h.nextFree →
      (∀ a, a < h0.nextFree → h.mem a = h0.mem a) →
      (h.nextFree ≤ (copyVerts fromG fuel idxs g h).2.nextFree ∧
        (∀ a, a < h.nextFree →
          (copyVerts fromG fuel idxs g h).2.mem a = h.mem a) ∧
        (copyVerts fromG fuel idxs g h).1.size = g.size ∧
        (copyVerts fromG fuel idxs g h).1.T = g.T ∧
        (∀ j, j ∉ idxs →
          (copyVerts fromG fuel idxs g h).1.edgeHead j = g.edgeHead j ∧
          (copyVerts fromG fuel idxs g h).1.labels j = g.labels j) ∧
        (∀ i ∈ idxs,
          (copyVerts fromG fuel idxs g h).1.labels i = fromG.labels i ∧
          ∃ l2, ChainIs (copyVerts fromG fuel idxs g h).2
              ((copyVerts fromG fuel idxs g h).1.edgeHead i) l2 ∧
            chainVals l2 = chainVals (ls i) ∧
            (∀ a ∈ chainAddrs l2, h.nextFree ≤ a ∧
              a < (copyVerts fromG fuel idxs g h).2.nextFree))) := by
  intro idxs
  induction idxs with
  | nil =>
    intro _ g h _ _ _
    exact ⟨Nat.le_refl _, fun a _ => rfl, rfl, rfl, fun j _ => ⟨rfl, rfl⟩, by simp⟩
  | cons i rest ih =>
    intro hnd g h hvalid hle hagree
    have hi : i ∉ rest := (List.nodup_cons.mp hnd).1
    have hndr : rest.Nodup := (List.nodup_cons.mp hnd).2
    obtain ⟨hchain0, haddr0, hlen0⟩ := hvalid i (List.mem_cons_self i rest)
    have hchain : ChainIs h (fromG.edgeHead i) (ls i) := by
      refine chainIs_frame h0 h _ _ hchain0 ?_
      intro a ha
      exact hagree a (haddr0 a ha)
    have haddrh : ∀ a ∈ chainAddrs (ls i), a < h.nextFree := by
      intro a ha
      exact lt_of_lt_of_le (haddr0 a ha) hle
    obtain ⟨l2i, hc2i, hvals2i, haddrs2i, hnf2i, hmem2i⟩ :=
      copyChain_spec (ls i) h fuel (fromG.edgeHead i) hchain hlen0 haddrh
    have hstep : copyVerts fromG fuel (i :: rest) g h =
        copyVerts fromG fuel rest
          { g with
            edgeHead := fun x =>
              if x = i then (copyChain h fuel (fromG.edgeHead i)).1 else g.edgeHead x,
            labels := fun x => if x = i then fromG.labels i else g.labels x }
          (copyChain h fuel (fromG.edgeHead i)).2 := rfl
    have hres := ih hndr
      { g with
        edgeHead := fun x =>
          if x = i then (copyChain h fuel (fromG.edgeHead i)).1 else g.edgeHead x,
        labels := fun x => if x = i then fromG.labels i else g.labels x }
      (copyChain h fuel (fromG.edgeHead i)).2
      (fun j hj => hvalid j (List.mem_cons_of_mem i hj))
      (by rw [hnf2i]; omega)
      (by
        intro a ha
        rw [hmem2i a (by omega)]
        exact hagree a ha)
    obtain ⟨ihle, ihmem, ihsize, ihT, ihout, ihin⟩ := hres
    rw [hstep]
    refine ⟨?_, ?_, ?_, ?_, ?_, ?_⟩
    · rw [hnf2i] at ihle
      omega
    · intro a ha
      rw [ihmem a (by rw [hnf2i]; omega)]
      exact hmem2i a ha
    · rw [ihsize]
    · rw [ihT]
    · intro j hj
      have hj1 : j ≠ i := fun hh => hj (hh ▸ List.mem_cons_self i rest)
      have hj2 : j ∉ rest := fun hh => hj (List.mem_cons_of_mem i hh)
      obtain ⟨he1, he2⟩ := ihout j hj2
      rw [he1, he2]
      constructor
      · simp [hj1]
      · simp [hj1]
    · intro j hj
      rcases List.mem_cons.mp hj with hj | hj
      · subst hj
        obtain ⟨he1, he2⟩ := ihout j hi
        constructor
        · rw [he2]
          simp
        · refine ⟨l2i, ?_, hvals2i, ?_⟩
          · rw [he1]
            simp only [if_pos rfl]
            refine chainIs_frame (copyChain h fuel (fromG.edgeHead j)).2 _ _ _ hc2i ?_
            intro a ha
            refine ihmem a ?_
            rw [hnf2i]
            rw [haddrs2i] at ha
            have := List.mem_range'_1.mp ha
            omega
          · intro a ha
            rw [haddrs2i] at ha
            have hmem := List.mem_range'_1.mp ha
            have hfin2 : (copyChain h fuel (fromG.edgeHead j)).2.nextFree ≤
                (copyVerts fromG fuel rest
                  { g with
                    edgeHead := fun x =>
                      if x = j then (copyChain h fuel (fromG.edgeHead j)).1
                      else g.edgeHead x,
                    labels := fun x => if x = j then fromG.labels j else g.labels x }
                  (copyChain h fuel (fromG.edgeHead j)).2).2.nextFree := ihle
            rw [hnf2i] at hfin2
            omega
      · obtain ⟨hl, l2j, hcj, hvj, haj⟩ := ihin j hj
        refine ⟨hl, l2j, hcj, hvj, ?_⟩
        intro a ha
        obtain ⟨ha1, ha2⟩ := haj a ha
        rw [hnf2i] at ha1
        exact ⟨by omega, ha2⟩

/-- Graph::copyGraph (Graph.cpp 481-523) in the heap model: size was copied
by the caller (copy constructor line 101 / operator= line 163), the vertex
loop copies labels and rebuilds every adjacency list with newly allocated
nodes, and finally the whole table T is copied cell by cell. -/
def hCopyGraph (fromG g : HGraph) (h : Heap) (fuel : Nat) : HGraph × Heap :=
  ({ (copyVerts fromG fuel (List.range' 1 fromG.size)
        { g with size := fromG.size } h).1 with T := fromG.T },
    (copyVerts fromG fuel (List.range' 1 fromG.size)
      { g with size := fromG.size } h).2)

/-- Graph::clearGraph in the heap model (pointers dropped; node disposal is
not observable through the remaining pointers). -/
def hClearHGraph (g : HGraph) : HGraph :=
  if 0 < g.size then
    { g with
      edgeHead := fun i => if 1 ≤ i ∧ i ≤ g.size then none else g.edgeHead i,
      labels := fun i => if 1 ≤ i ∧ i ≤ g.size then none else g.labels i }
  else g

/-- Graph::operator= (Graph.cpp 156-170): `sameObject` is the outcome of the
`this != &fromGraph` self-assignment test; when the two operands are the
same object nothing happens, otherwise the target is cleared, the size
copied and copyGraph invoked. -/
def hAssignGraph (sameObject : Bool) (toG fromG : HGraph) (h : Heap) (fuel : Nat) :
    HGraph × Heap :=
  if sameObject then (toG, h) else hCopyGraph fromG (hClearHGraph toG) h fuel

/-- C9: duplication via copyGraph produces a copy whose labels, adjacency
lists (same order and weights) and distance table equal the source's, built
entirely out of freshly allocated nodes that share no address with any
source chain; consequently writing through any address allocated by the
copy leaves every source chain intact; and a detected self-assignment is a
no-op.  The hypothesis is validity of the source: every in-range adjacency
list is a finite null-terminated chain within the allocated part of the
heap, no longer than the walking fuel. -/
theorem copyGraph_deep_copy_spec (fromG g : HGraph) (h : Heap) (fuel : Nat)
    (ls : Nat → List (Nat × Nat × Int))
    (hvalid : ∀ i, 1 ≤ i → i ≤ fromG.size →
      ChainIs h (fromG.edgeHead i) (ls i) ∧
        (∀ a ∈ chainAddrs (ls i), a < h.nextFree) ∧ (ls i).length ≤ fuel) :
    (hCopyGraph fromG g h fuel).1.size = fromG.size ∧
      (hCopyGraph fromG g h fuel).1.T = fromG.T ∧
      (∀ i, 1 ≤ i → i ≤ fromG.size →
        (hCopyGraph fromG g h fuel).1.labels i = fromG.labels i ∧
          ∃ l2,
            ChainIs (hCopyGraph fromG g h fuel).2
                ((hCopyGraph fromG g h fuel).1.edgeHead i) l2 ∧
              chainVals l2 = chainVals (ls i) ∧
              (∀ a ∈ chainAddrs l2, ∀ j, 1 ≤ j → j ≤ fromG.size →
                a ∉ chainAddrs (ls j)) ∧
              ChainIs (hCopyGraph fromG g h fuel).2 (fromG.edgeHead i) (ls i)) ∧
      (∀ b c, h.nextFree ≤ b →
        ∀ i, 1 ≤ i → i ≤ fromG.size →
          ChainIs (heapWrite (hCopyGraph fromG g h fuel).2 b c)
            (fromG.edgeHead i) (ls i)) ∧
      (∀ (toG : HGraph) (h2 : Heap), hAssignGraph true toG toG h2 fuel = (toG, h2)) := by
  have hmemrange : ∀ i, i ∈ List.range' 1 fromG.size ↔ 1 ≤ i ∧ i < 1 + fromG.size := by
    intro i; exact List.mem_range'_1
  have hnd : (List.range' 1 fromG.size).Nodup :=
    (List.pairwise_lt_range' 1 fromG.size).nodup
  have hres := copyVerts_spec fromG fuel ls h (List.range' 1 fromG.size) hnd
    { g with size := fromG.size } h
    (fun i hi =>
      hvalid i ((hmemrange i).mp hi).1 (by have := ((hmemrange i).mp hi).2; omega))
    (Nat.le_refl _) (fun a _ => rfl)
  obtain ⟨ihle, ihmem, ihsize, _, _, ihin⟩ := hres
  have horig : ∀ i, 1 ≤ i → i ≤ fromG.size →
      ChainIs (copyVerts fromG fuel (List.range' 1 fromG.size)
        { g with size := fromG.size } h).2 (fromG.edgeHead i) (ls i) := by
    intro i h1 h2
    obtain ⟨hchain, haddr, _⟩ := hvalid i h1 h2
    refine chainIs_frame h _ _ _ hchain ?_
    intro a ha
    exact ihmem a (haddr a ha)
  refine ⟨?_, rfl, ?_, ?_, fun toG h2 => rfl⟩
  · show (copyVerts fromG fuel (List.range' 1 fromG.size)
      { g with size := fromG.size } h).1.size = fromG.size
    rw [ihsize]
  · intro i h1 h2
    obtain ⟨hlab, l2, hc, hv, hb⟩ :=
      ihin i ((hmemrange i).mpr ⟨h1, by omega⟩)
    refine ⟨hlab, l2, hc, hv, ?_, horig i h1 h2⟩
    intro a ha j hj1 hj2 haj
    have hge := (hb a ha).1
    have hlt := (hvalid j hj1 hj2).2.1 a haj
    omega
  · intro b c hb i h1 h2
    refine chainIs_frame _ _ _ _ (horig i h1 h2) ?_
    intro a ha
    have halt := (hvalid i h1 h2).2.1 a ha
    have hne : a ≠ b := by omega
    simp only [heapWrite, if_neg hne]
    rfl

/-- Concrete one-node source chain for the copy witness. -/
def exCell : Cell := { adjVertex := 2, weight := 5, nextEdge := none }

/-- A heap holding that single node at address 0. -/
def exHeap : Heap := { mem := fun _ => exCell, nextFree := 1 }

/-- A one-vertex source graph whose vertex 1 points at the node. -/
def exHGraph : HGraph :=
  { size := 1
    edgeHead := fun i => if i = 1 then some 0 else none
    labels := fun i => if i = 1 then some "A" else none
    T := fun _ _ => initEntry }

/-- The chains of exHGraph in exHeap. -/
def exLs : Nat → List (Nat × Nat × Int) := fun i => if i = 1 then [(0, 2, 5)] else []

/-- An empty target graph for the copy witness. -/
def exTarget : HGraph :=
  { size := 0, edgeHead := fun _ => none, labels := fun _ => none, T := fun _ _ => initEntry }

/-- Witness for copyGraph_deep_copy_spec: copying the one-vertex graph gives
size 1, the source label, and a fresh chain with the same single
(destination, weight) pair. -/
theorem copyGraph_deep_copy_spec_witness :
    (hCopyGraph exHGraph exTarget exHeap 1).1.size = exHGraph.size ∧
      (hCopyGraph exHGraph exTarget exHeap 1).1.labels 1 = exHGraph.labels 1 ∧
      ∃ l2,
        ChainIs (hCopyGraph exHGraph exTarget exHeap 1).2
            ((hCopyGraph exHGraph exTarget exHeap 1).1.edgeHead 1) l2 ∧
          chainVals l2 = chainVals (exLs 1) := by
  have hvalid : ∀ i, 1 ≤ i → i ≤ exHGraph.size →
      ChainIs exHeap (exHGraph.edgeHead i) (exLs i) ∧
        (∀ a ∈ chainAddrs (exLs i), a < exHeap.nextFree) ∧ (exLs i).length ≤ 1 := by
    intro i h1 h2
    have hieq : i = 1 := by
      have : exHGraph.size = 1 := rfl
      omega
    subst hieq
    refine ⟨?_, by decide, by decide⟩
    show ChainIs exHeap (some 0) [(0, 2, 5)]
    exact ChainIs.cons 0 [] ChainIs.nil
  have hmain := copyGraph_deep_copy_spec exHGraph exTarget exHeap 1 exLs hvalid
  obtain ⟨hsz, _, hper, _, _⟩ := hmain
  obtain ⟨hlab, l2, hc, hv, _⟩ := hper 1 (by decide) (by decide)
  exact ⟨hsz, by rw [hlab], l2, hc, hv⟩
